import Mathlib

/-!
Verification of the subtitle parsing and Japanese tokenization utilities of
the japanese-asmr-learner project (`src/utils/subtitleParser.ts`).

Strings are modelled as `List Char` (the relevant code never leaves the
Basic Multilingual Plane, so UTF-16 code units coincide with code points);
JavaScript numbers are modelled exactly, as `ℚ` for fractional seconds,
with `Option` capturing NaN where it can arise.  Recursions whose JavaScript
originals are `while` loops over an advancing cursor are made structural by
a fuel parameter instantiated with the input length; their adequacy is
proved below.
-/

namespace SubtitleParser

/-- JavaScript regex `\s` (also the set trimmed by `String.prototype.trim`):
space, tab, line terminators, and the Unicode space separators. -/
def isSpace (c : Char) : Bool :=
  let n := c.toNat
  n == 9 || n == 10 || n == 11 || n == 12 || n == 13 || n == 32 ||
    n == 0xA0 || n == 0x1680 || (0x2000 ≤ n && n ≤ 0x200A) ||
    n == 0x2028 || n == 0x2029 || n == 0x202F || n == 0x205F ||
    n == 0x3000 || n == 0xFEFF

/-- The character class `[。、！？「」『』（）・…\.\,\!\?\(\)\[\]]` of
`punctPattern` (code points: U+3002 U+3001 U+FF01 U+FF1F U+300C U+300D
U+300E U+300F U+FF08 U+FF09 U+30FB U+2026 and the eight ASCII marks). -/
def isPunct (c : Char) : Bool :=
  let n := c.toNat
  n == 0x3002 || n == 0x3001 || n == 0xFF01 || n == 0xFF1F ||
    n == 0x300C || n == 0x300D || n == 0x300E || n == 0x300F ||
    n == 0xFF08 || n == 0xFF09 || n == 0x30FB || n == 0x2026 ||
    n == 0x2E || n == 0x2C || n == 0x21 || n == 0x3F ||
    n == 0x28 || n == 0x29 || n == 0x5B || n == 0x5D

/-- `kanjiPattern`: `[一-龯㐀-䶿]`. -/
def isKanji (c : Char) : Bool :=
  let n := c.toNat
  (0x4E00 ≤ n && n ≤ 0x9FAF) || (0x3400 ≤ n && n ≤ 0x4DBF)

/-- `hiraganaPattern`: `[぀-ゟ]`. -/
def isHiragana (c : Char) : Bool :=
  let n := c.toNat
  0x3040 ≤ n && n ≤ 0x309F

/-- `katakanaPattern`: `[゠-ヿ]`. -/
def isKatakana (c : Char) : Bool :=
  let n := c.toNat
  0x30A0 ≤ n && n ≤ 0x30FF

/-- The fixed particle set
`は が を に の で へ と や も か ね よ わ な ば て た だ`
(a JavaScript `Set` of one-character strings). -/
def particles : List (List Char) :=
  [['は'], ['が'], ['を'], ['に'], ['の'], ['で'], ['へ'], ['と'], ['や'],
   ['も'], ['か'], ['ね'], ['よ'], ['わ'], ['な'], ['ば'], ['て'], ['た'], ['だ']]

/-- `particles.has(s)`. -/
def isParticle (s : List Char) : Bool := particles.contains s

/-- The loop condition of the `other` branch of `tokenizeJapanese`:
not kanji, not hiragana, not katakana, not punctuation, not whitespace. -/
def otherCond (c : Char) : Bool :=
  !(isKanji c) && !(isHiragana c) && !(isKatakana c) && !(isPunct c) && !(isSpace c)

/-- The kanji-collecting loop: maximal `kanjiPattern` prefix, with the rest. -/
def kanjiTake : List Char → List Char × List Char
  | [] => ([], [])
  | c :: rest =>
    if isKanji c then
      let p := kanjiTake rest
      (c :: p.1, p.2)
    else ([], c :: rest)

/-- The okurigana lookahead of the kanji branch: accumulate consecutive
hiragana into `hiraganaBuffer`, breaking (before advancing `tempI`) as soon
as the buffer is a particle.  Returns the buffer and the input from `tempI`. -/
def okuriScan (acc : List Char) : List Char → List Char × List Char
  | [] => (acc, [])
  | c :: rest =>
    if isHiragana c then
      if isParticle (acc ++ [c]) then (acc ++ [c], c :: rest)
      else okuriScan (acc ++ [c]) rest
    else (acc, c :: rest)

/-- The hiragana-branch loop: consume consecutive hiragana, advancing `i`
before checking whether the accumulated segment is a particle, and breaking
as soon as it is. -/
def hiraScan (acc : List Char) : List Char → List Char × List Char
  | [] => (acc, [])
  | c :: rest =>
    if isHiragana c then
      if isParticle (acc ++ [c]) then (acc ++ [c], rest)
      else hiraScan (acc ++ [c]) rest
    else (acc, c :: rest)

/-- The katakana-collecting loop: consecutive katakana or `ー` (U+30FC). -/
def kataTake : List Char → List Char × List Char
  | [] => ([], [])
  | c :: rest =>
    if isKatakana c || c == 'ー' then
      let p := kataTake rest
      (c :: p.1, p.2)
    else ([], c :: rest)

/-- The other-branch loop: consecutive characters satisfying `otherCond`. -/
def otherTake : List Char → List Char × List Char
  | [] => ([], [])
  | c :: rest =>
    if otherCond c then
      let p := otherTake rest
      (c :: p.1, p.2)
    else ([], c :: rest)

/-- One segment-collecting step of `tokenizeJapanese` for a non-space,
non-punctuation character `c` followed by `rest`: the segment text and the
input remaining at the updated scan position.  The branch order follows the
`segmentType` dispatch (kanji, then hiragana, then katakana, else other). -/
def scanSegment (c : Char) (rest : List Char) : List Char × List Char :=
  if isKanji c then
    let p := kanjiTake (c :: rest)
    let q := okuriScan [] p.2
    if q.1 ≠ [] ∧ isParticle q.1 = false then (p.1 ++ q.1, q.2) else (p.1, p.2)
  else if isHiragana c then
    if isParticle [c] then ([c], rest)
    else hiraScan [] (c :: rest)
  else if isKatakana c then kataTake (c :: rest)
  else otherTake (c :: rest)

/-- The advance of the scan position made by one iteration of the
`tokenizeJapanese` `while` loop: whitespace and punctuation are skipped one
character at a time, any other character starts a segment scan. -/
def loopStep : List Char → List Char
  | [] => []
  | c :: rest =>
    if isSpace c then rest
    else if isPunct c then rest
    else (scanSegment c rest).2

/-- The `while (i < text.length)` loop of `tokenizeJapanese`, collecting the
non-empty segment texts in order.  `fuel` makes the recursion structural;
`tokenizeAux` instantiates it with the input length, which suffices because
every iteration advances the cursor (proved in `loopStep` lemmas below). -/
def tokenizeAuxF : Nat → List Char → List (List Char)
  | 0, _ => []
  | _, [] => []
  | fuel + 1, c :: rest =>
    if isSpace c then tokenizeAuxF fuel rest
    else if isPunct c then tokenizeAuxF fuel rest
    else
      let p := scanSegment c rest
      if p.1.isEmpty then tokenizeAuxF fuel p.2
      else p.1 :: tokenizeAuxF fuel p.2

/-- The segment texts produced by scanning `text`. -/
def tokenizeAux (text : List Char) : List (List Char) :=
  tokenizeAuxF text.length text

/-- The `Word` record (fields from `types`; `pitch` entries are irrelevant
to the parser and kept abstract as naturals). -/
structure Word where
  id : String
  text : List Char
  reading : List Char
  meaning : String
  partOfSpeech : String
  pitch : List Nat
deriving DecidableEq, Repr

/-- `createWord`. -/
def createWord (text : List Char) (id : String) : Word :=
  { id := id, text := text, reading := [], meaning := "点击查看更多",
    partOfSpeech := "", pitch := [] }

/-- `tokenizeJapanese`: each emitted segment becomes a `Word` with id
`<sentenceId>-w<index>`, indices counting emitted words from 0. -/
def tokenizeJapanese (text : List Char) (sentenceId : String) : List Word :=
  (tokenizeAux text).enum.map
    (fun p => createWord p.2 (sentenceId ++ "-w" ++ toString p.1))

/-- A plain maximal-run scan on hiragana: the segment is the maximal
consecutive hiragana prefix (spec-side definition for the refinement
claim about the hiragana branch). -/
def maxRunScan (l : List Char) : List Char × List Char :=
  (l.takeWhile isHiragana, l.dropWhile isHiragana)

/-- JavaScript regex `\d`, the digits 0-9. -/
def isDigitCh (c : Char) : Bool :=
  48 ≤ c.toNat && c.toNat ≤ 57

/-- Value of a digit string read in base 10. -/
def digitsVal (l : List Char) : Nat :=
  l.foldl (fun a c => a * 10 + (c.toNat - 48)) 0

/-- `String.prototype.trim`: strip `isSpace` characters from both ends. -/
def jsTrim (l : List Char) : List Char :=
  ((l.dropWhile isSpace).reverse.dropWhile isSpace).reverse

/-- `str.replace(',', '.')`: replace the first comma (only) with a period. -/
def replaceFirstComma : List Char → List Char
  | [] => []
  | c :: rest => if c = ',' then '.' :: rest else c :: replaceFirstComma rest

/-- Accumulator form of `String.prototype.split` on a one-character
separator. -/
def splitCharAux (sep : Char) (cur : List Char) : List Char → List (List Char)
  | [] => [cur.reverse]
  | c :: rest =>
    if c = sep then cur.reverse :: splitCharAux sep [] rest
    else splitCharAux sep (c :: cur) rest

/-- `str.split(sep)` for a one-character separator (empty pieces kept). -/
def splitChar (sep : Char) (l : List Char) : List (List Char) :=
  splitCharAux sep [] l

/-- Magnitude part of a JavaScript float literal beginning with a digit:
the longest `digits[.digits]` prefix; `none` when there is no digit. -/
def floatMag (l : List Char) : Option ℚ :=
  let d := l.takeWhile isDigitCh
  if d.isEmpty then none
  else
    let rest := l.drop d.length
    if rest.head? = some '.' then
      let f := (rest.drop 1).takeWhile isDigitCh
      some ((digitsVal d : ℚ) + (digitsVal f : ℚ) / 10 ^ f.length)
    else some ((digitsVal d : ℚ))

/-- Models the ECMAScript `parseFloat` builtin on the fragment of inputs
this module passes to it: optional leading whitespace, then a decimal
significand beginning with a digit; trailing non-numeric characters are
ignored; `none` stands for NaN.  (Signs, exponents, a leading `.`, and
`Infinity` never occur in the timestamp strings handled here.) -/
def jsParseFloat (l : List Char) : Option ℚ :=
  floatMag (l.dropWhile isSpace)

/-- Models the ECMAScript `parseInt(str, 10)` builtin: optional leading
whitespace, an optional sign, then a non-empty digit prefix; trailing
characters are ignored; `none` stands for NaN. -/
def jsParseInt (l : List Char) : Option Int :=
  let t := l.dropWhile isSpace
  match t with
  | '-' :: r =>
    let d := r.takeWhile isDigitCh
    if d.isEmpty then none else some (-(digitsVal d : Int))
  | '+' :: r =>
    let d := r.takeWhile isDigitCh
    if d.isEmpty then none else some (digitsVal d : Int)
  | r =>
    let d := r.takeWhile isDigitCh
    if d.isEmpty then none else some (digitsVal d : Int)

/-- `parseSrtTime`: trim, turn the first comma into a period, split on `:`;
three parts give `h*3600 + m*60 + s`, two give `m*60 + s`, anything else
falls back to `parseFloat(cleanTime) || 0`.  `none` stands for NaN. -/
def parseSrtTime (l : List Char) : Option ℚ :=
  let cleanTime := replaceFirstComma (jsTrim l)
  match splitChar ':' cleanTime with
  | [p0, p1, p2] =>
    match jsParseFloat p0, jsParseFloat p1, jsParseFloat p2 with
    | some h, some m, some s => some (h * 3600 + m * 60 + s)
    | _, _, _ => none
  | [p0, p1] =>
    match jsParseFloat p0, jsParseFloat p1 with
    | some m, some s => some (m * 60 + s)
    | _, _ => none
  | _ => some ((jsParseFloat cleanTime).getD 0)

/-- `parseVttTime` delegates to `parseSrtTime`. -/
def parseVttTime (l : List Char) : Option ℚ :=
  parseSrtTime l

/-- Match `:\d\d:\d\d[,.]\d\d\d` at the head; returns matched text and rest. -/
def matchTailSrt : List Char → Option (List Char × List Char)
  | ':' :: a :: b :: ':' :: d :: e :: s :: f :: g :: h :: r =>
    if isDigitCh a && isDigitCh b && isDigitCh d && isDigitCh e &&
        (s == ',' || s == '.') && isDigitCh f && isDigitCh g && isDigitCh h
    then some ([':', a, b, ':', d, e, s, f, g, h], r)
    else none
  | _ => none

/-- Match `:\d\d[,.]\d\d\d` at the head (the short VTT tail). -/
def matchTailShort : List Char → Option (List Char × List Char)
  | ':' :: a :: b :: s :: f :: g :: h :: r =>
    if isDigitCh a && isDigitCh b && (s == ',' || s == '.') &&
        isDigitCh f && isDigitCh g && isDigitCh h
    then some ([':', a, b, s, f, g, h], r)
    else none
  | _ => none

/-- Match `\d{1,2}:\d{2}:\d{2}[,.]\d{3}` at the head (greedy hour width:
two digits tried before one, as the regex engine does). -/
def matchTsSrt : List Char → Option (List Char × List Char)
  | a :: b :: r =>
    if isDigitCh a && isDigitCh b then
      match matchTailSrt r with
      | some p => some (a :: b :: p.1, p.2)
      | none => (matchTailSrt (b :: r)).map (fun p => (a :: p.1, p.2))
    else if isDigitCh a then
      (matchTailSrt (b :: r)).map (fun p => (a :: p.1, p.2))
    else none
  | _ => none

/-- Match `\d{1,2}:\d{2}[,.]\d{3}` at the head. -/
def matchTsShort : List Char → Option (List Char × List Char)
  | a :: b :: r =>
    if isDigitCh a && isDigitCh b then
      match matchTailShort r with
      | some p => some (a :: b :: p.1, p.2)
      | none => (matchTailShort (b :: r)).map (fun p => (a :: p.1, p.2))
    else if isDigitCh a then
      (matchTailShort (b :: r)).map (fun p => (a :: p.1, p.2))
    else none
  | _ => none

/-- The VTT timestamp alternation: long form tried before short form. -/
def matchTsVtt (l : List Char) : Option (List Char × List Char) :=
  match matchTsSrt l with
  | some p => some p
  | none => matchTsShort l

/-- Match the SRT range pattern
`(\d{1,2}:\d{2}:\d{2}[,\.]\d{3})\s*-->\s*(\d{1,2}:\d{2}:\d{2}[,\.]\d{3})`
at the head, returning the two captured timestamps. -/
def matchRangeSrt (l : List Char) : Option (List Char × List Char) :=
  match matchTsSrt l with
  | none => none
  | some (t1, r1) =>
    match r1.dropWhile isSpace with
    | '-' :: '-' :: '>' :: r3 =>
      match matchTsSrt (r3.dropWhile isSpace) with
      | some (t2, _) => some (t1, t2)
      | none => none
    | _ => none

/-- `line.match(...)` for the SRT range pattern: first (leftmost) match. -/
def searchRangeSrt : List Char → Option (List Char × List Char)
  | [] => none
  | c :: rest =>
    match matchRangeSrt (c :: rest) with
    | some p => some p
    | none => searchRangeSrt rest

/-- Match the VTT range pattern (either timestamp may be long or short). -/
def matchRangeVtt (l : List Char) : Option (List Char × List Char) :=
  match matchTsVtt l with
  | none => none
  | some (t1, r1) =>
    match r1.dropWhile isSpace with
    | '-' :: '-' :: '>' :: r3 =>
      match matchTsVtt (r3.dropWhile isSpace) with
      | some (t2, _) => some (t1, t2)
      | none => none
    | _ => none

/-- `line.match(...)` for the VTT range pattern: first (leftmost) match. -/
def searchRangeVtt : List Char → Option (List Char × List Char)
  | [] => none
  | c :: rest =>
    match matchRangeVtt (c :: rest) with
    | some p => some p
    | none => searchRangeVtt rest

/-- `content.split(/\n\n+/)` as a three-state scanner: state 0 inside a
block, state 1 after a single newline (still part of the block), state 2
inside a separator run of newlines. -/
def splitBlocksGo (state : Nat) (cur : List Char) : List Char → List (List Char)
  | [] =>
    if state = 2 then [[]]
    else if state = 1 then [('\n' :: cur).reverse]
    else [cur.reverse]
  | c :: rest =>
    if state = 2 then
      if c = '\n' then splitBlocksGo 2 [] rest else splitBlocksGo 0 [c] rest
    else if state = 1 then
      if c = '\n' then cur.reverse :: splitBlocksGo 2 [] rest
      else splitBlocksGo 0 (c :: '\n' :: cur) rest
    else
      if c = '\n' then splitBlocksGo 1 cur rest
      else splitBlocksGo 0 (c :: cur) rest

/-- `content.split(/\n\n+/)`: split on runs of two or more newlines. -/
def splitBlocks (l : List Char) : List (List Char) :=
  splitBlocksGo 0 [] l

/-- `text.replace(/<[^>]*>/g, '')` with structural fuel: drop every
`<...>` group; a `<` with no later `>` is kept verbatim. -/
def stripTagsF : Nat → List Char → List Char
  | 0, _ => []
  | _, [] => []
  | fuel + 1, c :: rest =>
    if c = '<' then
      match rest.dropWhile (fun x => x ≠ '>') with
      | '>' :: r => stripTagsF fuel r
      | _ => c :: stripTagsF fuel rest
    else c :: stripTagsF fuel rest

/-- `text.replace(/<[^>]*>/g, '')`. -/
def stripTags (l : List Char) : List Char :=
  stripTagsF l.length l

/-- `lines.join(' ')`. -/
def joinSpace : List (List Char) → List Char
  | [] => []
  | [x] => x
  | x :: xs => x ++ ' ' :: joinSpace xs

/-- `line.includes('-->')`. -/
def containsArrow : List Char → Bool
  | '-' :: '-' :: '>' :: _ => true
  | _ :: rest => containsArrow rest
  | [] => false

/-- The `SubtitleEntry` record; `startTime`/`endTime` are `none` when the
JavaScript value would be NaN. -/
structure SubtitleEntry where
  id : Int
  startTime : Option ℚ
  endTime : Option ℚ
  text : List Char
deriving DecidableEq, Repr

/-- The body of the `parseSRT` block loop: `none` when the block is
skipped (fewer than 3 lines, non-integer first line, no timestamp match,
or empty text after markup stripping). -/
def srtBlockEntry (block : List Char) : Option SubtitleEntry :=
  let lines := splitChar '\n' block
  if lines.length < 3 then none
  else
    match jsParseInt (lines.getD 0 []) with
    | none => none
    | some id =>
      match searchRangeSrt (lines.getD 1 []) with
      | none => none
      | some (t1, t2) =>
        let text := jsTrim (stripTags (joinSpace (lines.drop 2)))
        if text = [] then none
        else some ⟨id, parseSrtTime t1, parseSrtTime t2, text⟩

/-- `parseSRT`. -/
def parseSRT (content : List Char) : List SubtitleEntry :=
  (splitBlocks (jsTrim content)).filterMap srtBlockEntry

/-- The main `parseVTT` loop over the remaining lines, with the running
`entryId` (incremented only when a cue is pushed) and structural fuel. -/
def parseVTTLoopF : Nat → List (List Char) → Nat → List SubtitleEntry
  | 0, _, _ => []
  | _, [], _ => []
  | fuel + 1, line :: rest, n =>
    match searchRangeVtt (jsTrim line) with
    | some (t1, t2) =>
      let taken := rest.takeWhile (fun x => !(jsTrim x).isEmpty && !(containsArrow x))
      let text := jsTrim (stripTags (joinSpace (taken.map jsTrim)))
      let rest2 := rest.drop taken.length
      if text = [] then parseVTTLoopF fuel rest2 n
      else ⟨(n : Int), parseVttTime t1, parseVttTime t2, text⟩ ::
        parseVTTLoopF fuel rest2 (n + 1)
    | none => parseVTTLoopF fuel rest n

/-- `parseVTT` after splitting into lines: skip everything before the
first line containing `-->`, then run the cue loop with ids from 1. -/
def parseVTTLines (lines : List (List Char)) : List SubtitleEntry :=
  let body := lines.dropWhile (fun x => !(containsArrow x))
  parseVTTLoopF body.length body 1

/-- `parseVTT`. -/
def parseVTT (content : List Char) : List SubtitleEntry :=
  parseVTTLines (splitChar '\n' content)

/-- The `Sentence` record (fields the parser fills). -/
structure Sentence where
  id : String
  text : List Char
  reading : List Char
  translation : List Char
  startTime : Option ℚ
  endTime : Option ℚ
  words : List Word
deriving DecidableEq, Repr

/-- The per-entry body of `subtitlesToSentences`. -/
def sentenceOf (entry : SubtitleEntry) : Sentence :=
  let sentenceId := "sub-" ++ toString entry.id
  let words := tokenizeJapanese entry.text sentenceId
  { id := sentenceId, text := entry.text, reading := [], translation := [],
    startTime := entry.startTime, endTime := entry.endTime,
    words := if 0 < words.length then words
             else [createWord entry.text (sentenceId ++ "-w0")] }

/-- `subtitlesToSentences`. -/
def subtitlesToSentences (entries : List SubtitleEntry) : List Sentence :=
  entries.map sentenceOf

/-- Follows the spec's words for a valid SRT block: first line an integer
cue index, second line matching the timestamp-range pattern, the remaining
lines joined with single spaces, markup-stripped and trimmed — amended with
the requirement that this text be non-empty. -/
def specSrtBlock (block : List Char) : Option SubtitleEntry :=
  match splitChar '\n' block with
  | l0 :: l1 :: rest =>
    match jsParseInt l0, searchRangeSrt l1 with
    | some n, some (t1, t2) =>
      let text := jsTrim (stripTags (joinSpace rest))
      if text = [] then none
      else some ⟨n, parseSrtTime t1, parseSrtTime t2, text⟩
    | _, _ => none
  | _ => none

/-- Follows the claim's literal words for a valid SRT block: only the
integer-index and timestamp checks, with no requirement that the joined
text be non-empty. -/
def specSrtBlockNoText (block : List Char) : Option SubtitleEntry :=
  match splitChar '\n' block with
  | l0 :: l1 :: rest =>
    match jsParseInt l0, searchRangeSrt l1 with
    | some n, some (t1, t2) =>
      some ⟨n, parseSrtTime t1, parseSrtTime t2, jsTrim (stripTags (joinSpace rest))⟩
    | _, _ => none
  | _ => none

/-! ### Character-class facts -/

theorem char_eq_of_toNat_eq {a b : Char} (h : a.toNat = b.toNat) : a = b := by
  have := congrArg Char.ofNat h
  rwa [Char.ofNat_toNat, Char.ofNat_toNat] at this

theorem kanji_clean {x : Char} (h : isKanji x = true) :
    isPunct x = false ∧ isSpace x = false := by
  simp [isKanji] at h
  constructor <;> simp [isPunct, isSpace] <;> omega

theorem hira_clean {x : Char} (h : isHiragana x = true) :
    isPunct x = false ∧ isSpace x = false := by
  simp [isHiragana] at h
  constructor <;> simp [isPunct, isSpace] <;> omega

theorem kata_no_space {x : Char} (h : (isKatakana x || x == 'ー') = true) :
    isSpace x = false := by
  simp [isKatakana] at h
  rcases h with h | h
  · simp [isSpace]; omega
  · subst h; decide

theorem kata_no_punct {x : Char} (h : (isKatakana x || x == 'ー') = true)
    (hdot : x ≠ '・') : isPunct x = false := by
  have hn : x.toNat ≠ 0x30FB := fun hEq => hdot (char_eq_of_toNat_eq hEq)
  simp [isKatakana] at h
  rcases h with h | h
  · simp [isPunct]; omega
  · subst h; decide

theorem other_clean {x : Char} (h : otherCond x = true) :
    isPunct x = false ∧ isSpace x = false := by
  simp [otherCond] at h
  exact ⟨by tauto, by tauto⟩

theorem hira_not_kanji {c : Char} (h : isHiragana c = true) : isKanji c = false := by
  simp [isHiragana] at h
  simp [isKanji]; omega

theorem particle_length {l : List Char} (h : isParticle l = true) : l.length = 1 := by
  have hm : l ∈ particles := by
    simpa [isParticle] using h
  simp [particles] at hm
  rcases hm with rfl | rfl | rfl | rfl | rfl | rfl | rfl | rfl | rfl | rfl |
    rfl | rfl | rfl | rfl | rfl | rfl | rfl | rfl | rfl <;> rfl

/-! ### Scanner characterizations -/

theorem dropWhile_eq_drop (p : Char → Bool) (l : List Char) :
    l.dropWhile p = l.drop (l.takeWhile p).length := by
  induction l with
  | nil => rfl
  | cons c rest ih =>
    by_cases h : p c
    · simp [List.takeWhile_cons_of_pos h, List.dropWhile_cons_of_pos h, ih]
    · simp [List.takeWhile_cons_of_neg h, List.dropWhile_cons_of_neg h]

theorem kanjiTake_eq (l : List Char) :
    kanjiTake l = (l.takeWhile isKanji, l.dropWhile isKanji) := by
  induction l with
  | nil => rfl
  | cons c rest ih =>
    by_cases h : isKanji c
    · simp [kanjiTake, h, ih, List.takeWhile_cons_of_pos h,
        List.dropWhile_cons_of_pos h]
    · simp [kanjiTake, h, List.takeWhile_cons_of_neg h,
        List.dropWhile_cons_of_neg h]

theorem kataTake_eq (l : List Char) :
    kataTake l = (l.takeWhile (fun x => isKatakana x || x == 'ー'),
      l.dropWhile (fun x => isKatakana x || x == 'ー')) := by
  induction l with
  | nil => rfl
  | cons c rest ih =>
    by_cases h : (isKatakana c || c == 'ー') = true
    · rw [List.takeWhile_cons_of_pos (p := fun x => isKatakana x || x == 'ー') h,
        List.dropWhile_cons_of_pos (p := fun x => isKatakana x || x == 'ー') h]
      simp [kataTake, h, ih]
    · rw [List.takeWhile_cons_of_neg (p := fun x => isKatakana x || x == 'ー') h,
        List.dropWhile_cons_of_neg (p := fun x => isKatakana x || x == 'ー') h]
      simp [kataTake, h]

theorem otherTake_eq (l : List Char) :
    otherTake l = (l.takeWhile otherCond, l.dropWhile otherCond) := by
  induction l with
  | nil => rfl
  | cons c rest ih =>
    by_cases h : otherCond c
    · simp [otherTake, h, ih, List.takeWhile_cons_of_pos h,
        List.dropWhile_cons_of_pos h]
    · simp [otherTake, h, List.takeWhile_cons_of_neg h,
        List.dropWhile_cons_of_neg h]

theorem hiraScan_spec (l acc : List Char) :
    ∃ t, hiraScan acc l = (acc ++ t, l.drop t.length) ∧
      t <+: l.takeWhile isHiragana ∧
      (∀ p, p <+: t → p ≠ [] → p ≠ t → isParticle (acc ++ p) = false) ∧
      ((t ≠ [] ∧ isParticle (acc ++ t) = true) ∨
        (t = l.takeWhile isHiragana ∧ (t ≠ [] → isParticle (acc ++ t) = false))) := by
  induction l generalizing acc with
  | nil =>
    refine ⟨[], by simp [hiraScan], by simp, ?_, Or.inr (by simp)⟩
    intro p hp hne _
    exact absurd (List.prefix_nil.mp hp) hne
  | cons c rest ih =>
    by_cases hh : isHiragana c
    · by_cases hp : isParticle (acc ++ [c]) = true
      · refine ⟨[c], ?_, ?_, ?_, Or.inl ⟨by simp, hp⟩⟩
        · simp [hiraScan, hh, hp]
        · rw [List.takeWhile_cons_of_pos hh]
          exact List.cons_prefix_cons.mpr ⟨rfl, List.nil_prefix⟩
        · intro p hpre hne hnet
          rcases p with _ | ⟨a, p'⟩
          · exact absurd rfl hne
          · rw [List.cons_prefix_cons] at hpre
            obtain ⟨rfl, hp'⟩ := hpre
            rw [List.prefix_nil.mp hp'] at hnet
            exact absurd rfl hnet
      · have hpf : isParticle (acc ++ [c]) = false := by
          simpa using hp
        obtain ⟨t', heq, hpre, hprop, hdisj⟩ := ih (acc ++ [c])
        refine ⟨c :: t', ?_, ?_, ?_, ?_⟩
        · simp [hiraScan, hh, hp, heq, List.append_assoc]
        · rw [List.takeWhile_cons_of_pos hh]
          exact List.cons_prefix_cons.mpr ⟨rfl, hpre⟩
        · intro p hp2 hne hnet
          rcases p with _ | ⟨a, p'⟩
          · exact absurd rfl hne
          · rw [List.cons_prefix_cons] at hp2
            obtain ⟨rfl, hp'⟩ := hp2
            rcases eq_or_ne p' t' with rfl | hne'
            · exact absurd rfl hnet
            · rcases eq_or_ne p' ([] : List Char) with rfl | hne''
              · simpa using hpf
              · have := hprop p' hp' hne'' hne'
                simpa [List.append_assoc] using this
        · rcases hdisj with ⟨hne', hpart⟩ | ⟨rfl, hcond⟩
          · exact Or.inl ⟨by simp, by simpa [List.append_assoc] using hpart⟩
          · refine Or.inr ⟨by rw [List.takeWhile_cons_of_pos hh], ?_⟩
            intro _
            rcases eq_or_ne (rest.takeWhile isHiragana) ([] : List Char) with h0 | hne'
            · rw [h0]
              simpa using hpf
            · have := hcond hne'
              simpa [List.append_assoc] using this
    · refine ⟨[], by simp [hiraScan, hh], by simp, ?_,
        Or.inr ⟨by simp [List.takeWhile_cons_of_neg hh], by simp⟩⟩
      intro p hp hne _
      exact absurd (List.prefix_nil.mp hp) hne

theorem okuriScan_spec (l acc : List Char) :
    ∃ t, (okuriScan acc l).1 = acc ++ t ∧
      t <+: l.takeWhile isHiragana ∧
      (∀ p, p <+: t → p ≠ [] → p ≠ t → isParticle (acc ++ p) = false) ∧
      ((t ≠ [] ∧ isParticle (acc ++ t) = true ∧
          (okuriScan acc l).2 = l.drop (t.length - 1)) ∨
        (t = l.takeWhile isHiragana ∧ (okuriScan acc l).2 = l.drop t.length ∧
          (t ≠ [] → isParticle (acc ++ t) = false))) := by
  induction l generalizing acc with
  | nil =>
    refine ⟨[], by simp [okuriScan], by simp, ?_, Or.inr (by simp [okuriScan])⟩
    intro p hp hne _
    exact absurd (List.prefix_nil.mp hp) hne
  | cons c rest ih =>
    by_cases hh : isHiragana c
    · by_cases hp : isParticle (acc ++ [c]) = true
      · refine ⟨[c], ?_, ?_, ?_, Or.inl ⟨by simp, hp, by simp [okuriScan, hh, hp]⟩⟩
        · simp [okuriScan, hh, hp]
        · rw [List.takeWhile_cons_of_pos hh]
          exact List.cons_prefix_cons.mpr ⟨rfl, List.nil_prefix⟩
        · intro p hpre hne hnet
          rcases p with _ | ⟨a, p'⟩
          · exact absurd rfl hne
          · rw [List.cons_prefix_cons] at hpre
            obtain ⟨rfl, hp'⟩ := hpre
            rw [List.prefix_nil.mp hp'] at hnet
            exact absurd rfl hnet
      · have hpf : isParticle (acc ++ [c]) = false := by
          simpa using hp
        obtain ⟨t', h1, hpre, hprop, hdisj⟩ := ih (acc ++ [c])
        refine ⟨c :: t', ?_, ?_, ?_, ?_⟩
        · simp [okuriScan, hh, hp, h1, List.append_assoc]
        · rw [List.takeWhile_cons_of_pos hh]
          exact List.cons_prefix_cons.mpr ⟨rfl, hpre⟩
        · intro p hp2 hne hnet
          rcases p with _ | ⟨a, p'⟩
          · exact absurd rfl hne
          · rw [List.cons_prefix_cons] at hp2
            obtain ⟨rfl, hp'⟩ := hp2
            rcases eq_or_ne p' t' with rfl | hne'
            · exact absurd rfl hnet
            · rcases eq_or_ne p' ([] : List Char) with rfl | hne''
              · simpa using hpf
              · have := hprop p' hp' hne'' hne'
                simpa [List.append_assoc] using this
        · rcases hdisj with ⟨hne', hpart, hsnd⟩ | ⟨rfl, hsnd, hcond⟩
          · refine Or.inl ⟨by simp, by simpa [List.append_assoc] using hpart, ?_⟩
            rcases t' with _ | ⟨d, ds⟩
            · exact absurd rfl hne'
            · simpa [okuriScan, hh, hp] using hsnd
          · refine Or.inr ⟨by rw [List.takeWhile_cons_of_pos hh], ?_, ?_⟩
            · simpa [okuriScan, hh, hp] using hsnd
            · intro _
              rcases eq_or_ne (rest.takeWhile isHiragana) ([] : List Char) with h0 | hne'
              · rw [h0]
                simpa using hpf
              · have := hcond hne'
                simpa [List.append_assoc] using this
    · refine ⟨[], by simp [okuriScan, hh], by simp, ?_,
        Or.inr ⟨by simp [List.takeWhile_cons_of_neg hh], by simp [okuriScan, hh]⟩⟩
      intro p hp hne _
      exact absurd (List.prefix_nil.mp hp) hne

theorem prefix_append_drop {t l : List Char} (h : t <+: l) :
    t ++ l.drop t.length = l := by
  obtain ⟨s, rfl⟩ := h
  rw [List.drop_left]

theorem scanSegment_append (c : Char) (rest : List Char) :
    (scanSegment c rest).1 ++ (scanSegment c rest).2 = c :: rest := by
  by_cases hc : isKanji c = true
  · have hkt : (kanjiTake (c :: rest)).1 ++ (kanjiTake (c :: rest)).2 = c :: rest := by
      rw [kanjiTake_eq]
      exact List.takeWhile_append_dropWhile _ _
    obtain ⟨t, h1, hpre, -, hdisj⟩ := okuriScan_spec (kanjiTake (c :: rest)).2 []
    simp only [List.nil_append] at h1 hdisj
    by_cases hb : (okuriScan [] (kanjiTake (c :: rest)).2).1 ≠ [] ∧
        isParticle (okuriScan [] (kanjiTake (c :: rest)).2).1 = false
    · simp only [scanSegment, hc, if_true, if_pos hb]
      rcases hdisj with ⟨-, hpart, -⟩ | ⟨-, hsnd, -⟩
      · rw [h1] at hb
        exact absurd hpart (by simp [hb.2])
      · rw [h1, hsnd]
        have ht2 : t <+: (kanjiTake (c :: rest)).2 :=
          hpre.trans (List.takeWhile_prefix _)
        rw [List.append_assoc, prefix_append_drop ht2]
        exact hkt
    · simpa only [scanSegment, hc, if_true, if_neg hb] using hkt
  · by_cases hh : isHiragana c = true
    · by_cases hp : isParticle [c] = true
      · simp [scanSegment, hc, hh, hp]
      · obtain ⟨t, heq, hpre, -, -⟩ := hiraScan_spec (c :: rest) []
        simp only [List.nil_append] at heq
        have ht : t <+: (c :: rest) := hpre.trans (List.takeWhile_prefix _)
        simp only [scanSegment, hc, hh, hp, if_true, if_false, Bool.false_eq_true,
          heq]
        exact prefix_append_drop ht
    · by_cases hk : isKatakana c = true
      · simp only [scanSegment, hc, hh, hk, if_true, if_false, Bool.false_eq_true,
          kataTake_eq]
        exact List.takeWhile_append_dropWhile _ _
      · simp only [scanSegment, hc, hh, hk, if_false, Bool.false_eq_true,
          otherTake_eq]
        exact List.takeWhile_append_dropWhile _ _

theorem scanSegment_chars (c : Char) (rest : List Char) :
    ∀ x ∈ (scanSegment c rest).1, isKanji x = true ∨ isHiragana x = true ∨
      (isKatakana x || x == 'ー') = true ∨ otherCond x = true := by
  by_cases hc : isKanji c = true
  · obtain ⟨t, h1, hpre, -, -⟩ := okuriScan_spec (kanjiTake (c :: rest)).2 []
    simp only [List.nil_append] at h1
    have hkch : ∀ x ∈ (kanjiTake (c :: rest)).1, isKanji x = true := by
      intro x hx
      rw [kanjiTake_eq] at hx
      exact List.mem_takeWhile_imp hx
    have htch : ∀ x ∈ t, isHiragana x = true := by
      intro x hx
      exact List.mem_takeWhile_imp (hpre.subset hx)
    by_cases hb : (okuriScan [] (kanjiTake (c :: rest)).2).1 ≠ [] ∧
        isParticle (okuriScan [] (kanjiTake (c :: rest)).2).1 = false
    · simp only [scanSegment, hc, if_true, if_pos hb]
      intro x hx
      rcases List.mem_append.mp hx with hx | hx
      · exact Or.inl (hkch x hx)
      · rw [h1] at hx
        exact Or.inr (Or.inl (htch x hx))
    · simp only [scanSegment, hc, if_true, if_neg hb]
      intro x hx
      exact Or.inl (hkch x hx)
  · by_cases hh : isHiragana c = true
    · by_cases hp : isParticle [c] = true
      · simp only [scanSegment, hc, hh, hp, if_true, if_false, Bool.false_eq_true]
        intro x hx
        rcases List.mem_singleton.mp hx with rfl
        exact Or.inr (Or.inl hh)
      · obtain ⟨t, heq, hpre, -, -⟩ := hiraScan_spec (c :: rest) []
        simp only [List.nil_append] at heq
        simp only [scanSegment, hc, hh, hp, if_true, if_false, Bool.false_eq_true,
          heq]
        intro x hx
        exact Or.inr (Or.inl (List.mem_takeWhile_imp (hpre.subset hx)))
    · by_cases hk : isKatakana c = true
      · simp only [scanSegment, hc, hh, hk, if_true, if_false, Bool.false_eq_true,
          kataTake_eq]
        intro x hx
        exact Or.inr (Or.inr (Or.inl
          (List.mem_takeWhile_imp (p := fun y => isKatakana y || y == 'ー') hx)))
      · simp only [scanSegment, hc, hh, hk, if_false, Bool.false_eq_true,
          otherTake_eq]
        intro x hx
        exact Or.inr (Or.inr (Or.inr (List.mem_takeWhile_imp hx)))

theorem scanSegment_ne_nil (c : Char) (rest : List Char)
    (h1 : isSpace c = false) (h2 : isPunct c = false) :
    (scanSegment c rest).1 ≠ [] := by
  by_cases hc : isKanji c = true
  · have hkt : (kanjiTake (c :: rest)).1 = c :: rest.takeWhile isKanji := by
      rw [kanjiTake_eq]
      simp [List.takeWhile_cons_of_pos hc]
    by_cases hb : (okuriScan [] (kanjiTake (c :: rest)).2).1 ≠ [] ∧
        isParticle (okuriScan [] (kanjiTake (c :: rest)).2).1 = false
    · simp [scanSegment, hc, if_pos hb, hkt]
    · simp [scanSegment, hc, if_neg hb, hkt]
  · by_cases hh : isHiragana c = true
    · by_cases hp : isParticle [c] = true
      · simp [scanSegment, hc, hh, hp]
      · obtain ⟨t, heq, -, -, hdisj⟩ := hiraScan_spec (c :: rest) []
        simp only [List.nil_append] at heq hdisj
        simp only [scanSegment, hc, hh, hp, if_true, if_false, Bool.false_eq_true,
          heq]
        rcases hdisj with ⟨hne, -⟩ | ⟨hteq, -⟩
        · exact hne
        · rw [hteq, List.takeWhile_cons_of_pos hh]
          exact List.cons_ne_nil _ _
    · by_cases hk : isKatakana c = true
      · have hko : (isKatakana c || c == 'ー') = true := by simp [hk]
        simp only [scanSegment, hc, hh, hk, if_true, if_false, Bool.false_eq_true,
          kataTake_eq]
        rw [List.takeWhile_cons_of_pos (p := fun y => isKatakana y || y == 'ー') hko]
        exact List.cons_ne_nil _ _
      · have hoc : otherCond c = true := by
          simp [otherCond, hc, hh, hk, h1, h2]
        simp only [scanSegment, hc, hh, hk, if_false, Bool.false_eq_true,
          otherTake_eq]
        rw [List.takeWhile_cons_of_pos hoc]
        exact List.cons_ne_nil _ _

theorem scanSegment_progress (c : Char) (rest : List Char)
    (h1 : isSpace c = false) (h2 : isPunct c = false) :
    (scanSegment c rest).2.length ≤ rest.length := by
  have ha := congrArg List.length (scanSegment_append c rest)
  rw [List.length_append, List.length_cons] at ha
  have hn : 0 < (scanSegment c rest).1.length :=
    List.length_pos.mpr (scanSegment_ne_nil c rest h1 h2)
  omega

/-! ### Tokenizer loop lemmas -/

theorem seg_char_keep {x : Char}
    (hx : isKanji x = true ∨ isHiragana x = true ∨
      (isKatakana x || x == 'ー') = true ∨ otherCond x = true)
    (hdot : x ≠ '・') : (!(isPunct x || isSpace x)) = true := by
  rcases hx with h | h | h | h
  · simp [(kanji_clean h).1, (kanji_clean h).2]
  · simp [(hira_clean h).1, (hira_clean h).2]
  · simp [kata_no_punct h hdot, kata_no_space h]
  · simp [(other_clean h).1, (other_clean h).2]

theorem seg_char_no_space {x : Char}
    (hx : isKanji x = true ∨ isHiragana x = true ∨
      (isKatakana x || x == 'ー') = true ∨ otherCond x = true) :
    isSpace x = false := by
  rcases hx with h | h | h | h
  · exact (kanji_clean h).2
  · exact (hira_clean h).2
  · exact kata_no_space h
  · exact (other_clean h).2

theorem tokenizeAuxF_cons_space {fuel : Nat} {c : Char} {rest : List Char}
    (hs : isSpace c = true) :
    tokenizeAuxF (fuel + 1) (c :: rest) = tokenizeAuxF fuel rest := by
  rw [tokenizeAuxF, if_pos hs]

theorem tokenizeAuxF_cons_punct {fuel : Nat} {c : Char} {rest : List Char}
    (hs : isSpace c = false) (hq : isPunct c = true) :
    tokenizeAuxF (fuel + 1) (c :: rest) = tokenizeAuxF fuel rest := by
  rw [tokenizeAuxF, if_neg (by simp [hs]), if_pos hq]

theorem tokenizeAuxF_cons_seg {fuel : Nat} {c : Char} {rest : List Char}
    (hs : isSpace c = false) (hq : isPunct c = false)
    (hne : (scanSegment c rest).1 ≠ []) :
    tokenizeAuxF (fuel + 1) (c :: rest) =
      (scanSegment c rest).1 :: tokenizeAuxF fuel (scanSegment c rest).2 := by
  rw [tokenizeAuxF, if_neg (by simp [hs]), if_neg (by simp [hq])]
  simp only []
  rw [if_neg (by simpa [List.isEmpty_iff] using hne)]

theorem tokenizeAuxF_cons_empty {fuel : Nat} {c : Char} {rest : List Char}
    (hs : isSpace c = false) (hq : isPunct c = false)
    (hne : (scanSegment c rest).1 = []) :
    tokenizeAuxF (fuel + 1) (c :: rest) = tokenizeAuxF fuel (scanSegment c rest).2 := by
  rw [tokenizeAuxF, if_neg (by simp [hs]), if_neg (by simp [hq])]
  simp only []
  rw [if_pos (by simpa [List.isEmpty_iff] using hne)]

theorem tokenizeAuxF_flatten : ∀ (fuel : Nat) (l : List Char),
    l.length ≤ fuel → '・' ∉ l →
    (tokenizeAuxF fuel l).flatten =
      l.filter (fun ch => !(isPunct ch || isSpace ch)) := by
  intro fuel
  induction fuel with
  | zero =>
    intro l hl _
    rw [List.length_eq_zero.mp (Nat.le_zero.mp hl)]
    rfl
  | succ fuel ih =>
    intro l hl hdot
    rcases l with _ | ⟨c, rest⟩
    · rfl
    · rw [List.length_cons] at hl
      have hdr : '・' ∉ rest := fun h => hdot (List.mem_cons_of_mem _ h)
      by_cases hs : isSpace c = true
      · have hfil : List.filter (fun ch => !(isPunct ch || isSpace ch)) (c :: rest)
            = List.filter (fun ch => !(isPunct ch || isSpace ch)) rest := by
          simp [List.filter_cons, hs]
        rw [tokenizeAuxF_cons_space hs, hfil]
        exact ih rest (by omega) hdr
      · have hsf : isSpace c = false := by simpa using hs
        by_cases hq : isPunct c = true
        · have hfil : List.filter (fun ch => !(isPunct ch || isSpace ch)) (c :: rest)
              = List.filter (fun ch => !(isPunct ch || isSpace ch)) rest := by
            simp [List.filter_cons, hq]
          rw [tokenizeAuxF_cons_punct hsf hq, hfil]
          exact ih rest (by omega) hdr
        · have hqf : isPunct c = false := by simpa using hq
          have happ := scanSegment_append c rest
          have hne := scanSegment_ne_nil c rest hsf hqf
          have hprog := scanSegment_progress c rest hsf hqf
          have hdr2 : '・' ∉ (scanSegment c rest).2 := by
            intro h
            exact hdot (happ ▸ List.mem_append_right _ h)
          have hflt : (scanSegment c rest).1.filter
              (fun ch => !(isPunct ch || isSpace ch)) = (scanSegment c rest).1 := by
            rw [List.filter_eq_self]
            intro x hx
            have hxin : x ∈ c :: rest := happ ▸ List.mem_append_left _ hx
            have hxd : x ≠ '・' := fun h => hdot (h ▸ hxin)
            exact seg_char_keep (scanSegment_chars c rest x hx) hxd
          rw [tokenizeAuxF_cons_seg hsf hqf hne, List.flatten_cons,
            ih (scanSegment c rest).2 (by omega) hdr2]
          conv_rhs => rw [← happ]
          rw [List.filter_append, hflt]

theorem tokenizeAuxF_mem : ∀ (fuel : Nat) (l : List Char), l.length ≤ fuel →
    ∀ t ∈ tokenizeAuxF fuel l, t ≠ [] ∧ ∀ x ∈ t,
      (isKanji x = true ∨ isHiragana x = true ∨
        (isKatakana x || x == 'ー') = true ∨ otherCond x = true) ∧ x ∈ l := by
  intro fuel
  induction fuel with
  | zero =>
    intro l hl t ht
    rw [List.length_eq_zero.mp (Nat.le_zero.mp hl)] at ht
    exact absurd ht (by simp [tokenizeAuxF])
  | succ fuel ih =>
    intro l hl t ht
    rcases l with _ | ⟨c, rest⟩
    · exact absurd ht (by simp [tokenizeAuxF])
    · rw [List.length_cons] at hl
      by_cases hs : isSpace c = true
      · rw [tokenizeAuxF_cons_space hs] at ht
        obtain ⟨h1, h2⟩ := ih rest (by omega) t ht
        exact ⟨h1, fun x hx => ⟨(h2 x hx).1, List.mem_cons_of_mem _ (h2 x hx).2⟩⟩
      · have hsf : isSpace c = false := by simpa using hs
        by_cases hq : isPunct c = true
        · rw [tokenizeAuxF_cons_punct hsf hq] at ht
          obtain ⟨h1, h2⟩ := ih rest (by omega) t ht
          exact ⟨h1, fun x hx => ⟨(h2 x hx).1, List.mem_cons_of_mem _ (h2 x hx).2⟩⟩
        · have hqf : isPunct c = false := by simpa using hq
          have happ := scanSegment_append c rest
          have hne := scanSegment_ne_nil c rest hsf hqf
          have hprog := scanSegment_progress c rest hsf hqf
          rw [tokenizeAuxF_cons_seg hsf hqf hne] at ht
          rcases List.mem_cons.mp ht with rfl | ht2
          · refine ⟨hne, fun x hx => ⟨scanSegment_chars c rest x hx, ?_⟩⟩
            exact happ ▸ List.mem_append_left _ hx
          · obtain ⟨h1, h2⟩ := ih (scanSegment c rest).2 (by omega) t ht2
            refine ⟨h1, fun x hx => ⟨(h2 x hx).1, ?_⟩⟩
            exact happ ▸ List.mem_append_right _ (h2 x hx).2

theorem tokenizeAuxF_fuel : ∀ (f1 f2 : Nat) (l : List Char),
    l.length ≤ f1 → l.length ≤ f2 → tokenizeAuxF f1 l = tokenizeAuxF f2 l := by
  intro f1
  induction f1 with
  | zero =>
    intro f2 l h1 _
    rw [List.length_eq_zero.mp (Nat.le_zero.mp h1)]
    cases f2 <;> rfl
  | succ f1 ih =>
    intro f2 l h1 h2
    rcases l with _ | ⟨c, rest⟩
    · cases f2 <;> rfl
    · rw [List.length_cons] at h1 h2
      rcases f2 with _ | f2
      · omega
      · by_cases hs : isSpace c = true
        · rw [tokenizeAuxF_cons_space hs, tokenizeAuxF_cons_space hs]
          exact ih f2 rest (by omega) (by omega)
        · have hsf : isSpace c = false := by simpa using hs
          by_cases hq : isPunct c = true
          · rw [tokenizeAuxF_cons_punct hsf hq, tokenizeAuxF_cons_punct hsf hq]
            exact ih f2 rest (by omega) (by omega)
          · have hqf : isPunct c = false := by simpa using hq
            have hprog := scanSegment_progress c rest hsf hqf
            by_cases hne : (scanSegment c rest).1 = []
            · rw [tokenizeAuxF_cons_empty hsf hqf hne,
                tokenizeAuxF_cons_empty hsf hqf hne]
              exact ih f2 (scanSegment c rest).2 (by omega) (by omega)
            · rw [tokenizeAuxF_cons_seg hsf hqf hne, tokenizeAuxF_cons_seg hsf hqf hne]
              rw [ih f2 (scanSegment c rest).2 (by omega) (by omega)]

theorem tokenizeAuxF_nil_of_punct_space : ∀ (fuel : Nat) (l : List Char),
    (∀ x ∈ l, isPunct x = true ∨ isSpace x = true) →
    tokenizeAuxF fuel l = [] := by
  intro fuel
  induction fuel with
  | zero => intro l _; cases l <;> rfl
  | succ fuel ih =>
    intro l h
    rcases l with _ | ⟨c, rest⟩
    · rfl
    · have hr : ∀ x ∈ rest, isPunct x = true ∨ isSpace x = true :=
        fun x hx => h x (List.mem_cons_of_mem _ hx)
      by_cases hs : isSpace c = true
      · rw [tokenizeAuxF_cons_space hs]
        exact ih rest hr
      · have hsf : isSpace c = false := by simpa using hs
        rcases h c (List.mem_cons_self c rest) with hq | hs2
        · rw [tokenizeAuxF_cons_punct hsf hq]
          exact ih rest hr
        · exact absurd hs2 (by simp [hsf])

theorem tokenizeJapanese_texts (text : List Char) (sid : String) :
    (tokenizeJapanese text sid).map Word.text = tokenizeAux text := by
  simp only [tokenizeJapanese, List.map_map]
  exact List.enum_map_snd (tokenizeAux text)

theorem tokenizeJapanese_ids (text : List Char) (sid : String) :
    (tokenizeJapanese text sid).map Word.id =
      (List.range (tokenizeAux text).length).map
        (fun k => sid ++ "-w" ++ toString k) := by
  simp only [tokenizeJapanese, List.map_map]
  conv_rhs => rw [← List.enum_map_fst (tokenizeAux text)]
  rw [List.map_map]
  rfl

theorem tokenizeJapanese_length (text : List Char) (sid : String) :
    (tokenizeJapanese text sid).length = (tokenizeAux text).length := by
  simp [tokenizeJapanese]

theorem hiraScan_acc_ne_nil : ∀ (l acc : List Char), 1 ≤ acc.length →
    hiraScan acc l = (acc ++ l.takeWhile isHiragana, l.dropWhile isHiragana) := by
  intro l
  induction l with
  | nil => intro acc _; simp [hiraScan]
  | cons c rest ih =>
    intro acc hacc
    by_cases hh : isHiragana c
    · have hnp : isParticle (acc ++ [c]) = false := by
        cases hq : isParticle (acc ++ [c])
        · rfl
        · have := particle_length hq
          rw [List.length_append, List.length_singleton] at this
          omega
      rw [List.takeWhile_cons_of_pos hh, List.dropWhile_cons_of_pos hh]
      simp only [hiraScan, hh, if_true, hnp, Bool.false_eq_true, if_false,
        ih (acc ++ [c]) (by simp), List.append_assoc, List.singleton_append]
    · rw [List.takeWhile_cons_of_neg hh, List.dropWhile_cons_of_neg hh]
      simp [hiraScan, hh]

/-! ### Claims -/

/-- C1 (counterexample): the punctuation character `・` (U+30FB) lies inside
the katakana block, so the katakana branch consumes it into a token; on
`"ア・ア"` the concatenation of token texts is `"ア・ア"`, not the input with
punctuation removed (`"アア"`). -/
theorem c1_counterexample :
    ¬ (((tokenizeJapanese ("ア・ア".toList) "s").map Word.text).flatten =
      ("ア・ア".toList).filter (fun ch => !(isPunct ch || isSpace ch))) := by
  decide

/-- C1 (amended): for every input containing no `・` (U+30FB, the one
punctuation character that lies in the katakana block), concatenating the
token texts of `tokenizeJapanese` in order yields the input with every
punctuation-set character and every whitespace character removed; in
particular the tokens cover the input in left-to-right source order. -/
theorem c1_concat (text : List Char) (sid : String) (hdot : '・' ∉ text) :
    ((tokenizeJapanese text sid).map Word.text).flatten =
      text.filter (fun ch => !(isPunct ch || isSpace ch)) := by
  rw [tokenizeJapanese_texts]
  exact tokenizeAuxF_flatten text.length text le_rfl hdot

theorem c1_witness :
    ('・' ∉ ("猫は可愛い".toList)) ∧
      ((tokenizeJapanese ("猫は可愛い".toList) "s").map Word.text).flatten =
        ("猫は可愛い".toList).filter (fun ch => !(isPunct ch || isSpace ch)) :=
  ⟨by decide, c1_concat ("猫は可愛い".toList) "s" (by decide)⟩

/-- C2: in the kanji branch, after the maximal kanji run the okurigana
lookahead accumulates hiragana one character at a time, stopping as soon as
the accumulated suffix is exactly a particle (no proper non-empty prefix of
the final buffer is a particle, and the buffer is either a particle or the
whole following hiragana run); the buffer is appended to the token, with the
cursor advanced past it, exactly when it is non-empty and not a particle;
and tokenizing `"猫は可愛い"` yields the tokens `猫`, `は`, `可愛い`. -/
theorem c2_kanji_branch :
    (∀ (c : Char) (rest : List Char), isKanji c = true →
      ((okuriScan [] (kanjiTake (c :: rest)).2).1 ≠ [] ∧
          isParticle (okuriScan [] (kanjiTake (c :: rest)).2).1 = false →
        scanSegment c rest =
          ((kanjiTake (c :: rest)).1 ++ (okuriScan [] (kanjiTake (c :: rest)).2).1,
            (kanjiTake (c :: rest)).2.drop
              (okuriScan [] (kanjiTake (c :: rest)).2).1.length)) ∧
      ((okuriScan [] (kanjiTake (c :: rest)).2).1 = [] ∨
          isParticle (okuriScan [] (kanjiTake (c :: rest)).2).1 = true →
        scanSegment c rest = ((kanjiTake (c :: rest)).1, (kanjiTake (c :: rest)).2)) ∧
      (okuriScan [] (kanjiTake (c :: rest)).2).1 <+:
        (kanjiTake (c :: rest)).2.takeWhile isHiragana ∧
      (∀ p, p <+: (okuriScan [] (kanjiTake (c :: rest)).2).1 → p ≠ [] →
        p ≠ (okuriScan [] (kanjiTake (c :: rest)).2).1 → isParticle p = false) ∧
      (isParticle (okuriScan [] (kanjiTake (c :: rest)).2).1 = true ∨
        (okuriScan [] (kanjiTake (c :: rest)).2).1 =
          (kanjiTake (c :: rest)).2.takeWhile isHiragana)) ∧
    (tokenizeJapanese ("猫は可愛い".toList) "s").map Word.text =
      ["猫".toList, "は".toList, "可愛い".toList] := by
  constructor
  · intro c rest hc
    obtain ⟨t, h1, hpre, hprop, hdisj⟩ := okuriScan_spec (kanjiTake (c :: rest)).2 []
    simp only [List.nil_append] at h1 hprop hdisj
    refine ⟨?_, ?_, ?_, ?_, ?_⟩
    · intro hb
      have hB : (okuriScan [] (kanjiTake (c :: rest)).2).2 =
          (kanjiTake (c :: rest)).2.drop t.length := by
        rcases hdisj with ⟨-, hpart, -⟩ | ⟨-, hsnd, -⟩
        · rw [h1] at hb
          exact absurd hpart (by simp [hb.2])
        · exact hsnd
      simp only [scanSegment, hc, if_true, if_pos hb]
      rw [hB, h1]
    · intro hb
      have hbn : ¬((okuriScan [] (kanjiTake (c :: rest)).2).1 ≠ [] ∧
          isParticle (okuriScan [] (kanjiTake (c :: rest)).2).1 = false) := by
        rcases hb with hb | hb
        · exact fun h => h.1 hb
        · exact fun h => absurd h.2 (by simp [hb])
      simp only [scanSegment, hc, if_true, if_neg hbn]
    · rw [h1]
      exact hpre
    · intro p hp hne hnet
      rw [h1] at hp hnet
      exact hprop p hp hne hnet
    · rw [h1]
      rcases hdisj with ⟨-, hpart, -⟩ | ⟨hteq, -, -⟩
      · exact Or.inl hpart
      · exact Or.inr hteq
  · decide

theorem c2_witness :
    (isKanji '可' = true) ∧
      ((okuriScan [] (kanjiTake ('可' :: "愛い".toList)).2).1 ≠ [] ∧
        isParticle (okuriScan [] (kanjiTake ('可' :: "愛い".toList)).2).1 = false) ∧
      scanSegment '可' ("愛い".toList) =
        ((kanjiTake ('可' :: "愛い".toList)).1 ++
            (okuriScan [] (kanjiTake ('可' :: "愛い".toList)).2).1,
          (kanjiTake ('可' :: "愛い".toList)).2.drop
            (okuriScan [] (kanjiTake ('可' :: "愛い".toList)).2).1.length) :=
  ⟨by decide, by decide,
    ((c2_kanji_branch.1 '可' ("愛い".toList) (by decide)).1) (by decide)⟩

/-- C3: in the hiragana branch, a character that alone is a particle is
emitted immediately as a one-character token; otherwise consecutive hiragana
are consumed greedily with the particle check after each consumed character:
the resulting segment is a non-empty prefix of the maximal hiragana run, no
proper non-empty prefix of it is a particle, it is either itself a particle
(the scan stopped at the first match, including it) or the whole run, and
the cursor advances exactly past it. -/
theorem c3_hiragana_branch (c : Char) (rest : List Char)
    (hh : isHiragana c = true) :
    (isParticle [c] = true → scanSegment c rest = ([c], rest)) ∧
    (isParticle [c] = false →
      (scanSegment c rest).1 ≠ [] ∧
      (scanSegment c rest).1 <+: (c :: rest).takeWhile isHiragana ∧
      (∀ p, p <+: (scanSegment c rest).1 → p ≠ [] → p ≠ (scanSegment c rest).1 →
        isParticle p = false) ∧
      (isParticle (scanSegment c rest).1 = true ∨
        (scanSegment c rest).1 = (c :: rest).takeWhile isHiragana) ∧
      (scanSegment c rest).2 = (c :: rest).drop (scanSegment c rest).1.length) := by
  have hck := hira_not_kanji hh
  constructor
  · intro hp
    simp [scanSegment, hck, hh, hp]
  · intro hp
    have hseg : scanSegment c rest = hiraScan [] (c :: rest) := by
      simp [scanSegment, hck, hh, hp]
    obtain ⟨t, heq, hpre, hprop, hdisj⟩ := hiraScan_spec (c :: rest) []
    simp only [List.nil_append] at heq hprop hdisj
    rw [hseg, heq]
    have hne : t ≠ [] := by
      rcases hdisj with ⟨hne, -⟩ | ⟨hteq, -⟩
      · exact hne
      · rw [hteq, List.takeWhile_cons_of_pos hh]
        exact List.cons_ne_nil _ _
    refine ⟨hne, hpre, hprop, ?_, rfl⟩
    rcases hdisj with ⟨-, hpart⟩ | ⟨hteq, -⟩
    · exact Or.inl hpart
    · exact Or.inr hteq

theorem c3_witness :
    (isHiragana 'は' = true) ∧ (isParticle ['は'] = true) ∧
      scanSegment 'は' ("な".toList) = (['は'], "な".toList) :=
  ⟨by decide, by decide,
    (c3_hiragana_branch 'は' ("な".toList) (by decide)).1 (by decide)⟩

/-- C7 (counterexample): on the input `"ア・ア"` the single emitted token
has text `ア・ア`, which contains the punctuation-set character `・`. -/
theorem c7_counterexample :
    ¬ (∀ w ∈ tokenizeJapanese ("ア・ア".toList) "s",
      ∀ ch ∈ w.text, isPunct ch = false) := by
  decide

/-- C7 (amended): every token emitted by `tokenizeJapanese` has non-empty
text containing no whitespace character; provided the input contains no `・`
(U+30FB, the punctuation character inside the katakana block), the text also
contains no punctuation-set character; and the ids are exactly
`<segmentId>-w<index>` with `index` counting emitted tokens from 0. -/
theorem c7_token_invariants (text : List Char) (sid : String) :
    (∀ w ∈ tokenizeJapanese text sid, w.text ≠ [] ∧
      ∀ ch ∈ w.text, isSpace ch = false) ∧
    ('・' ∉ text → ∀ w ∈ tokenizeJapanese text sid,
      ∀ ch ∈ w.text, isPunct ch = false) ∧
    (tokenizeJapanese text sid).map Word.id =
      (List.range (tokenizeJapanese text sid).length).map
        (fun k => sid ++ "-w" ++ toString k) := by
  have hmem := tokenizeAuxF_mem text.length text le_rfl
  have htx : ∀ w ∈ tokenizeJapanese text sid, w.text ∈ tokenizeAux text := by
    intro w hw
    have : w.text ∈ (tokenizeJapanese text sid).map Word.text :=
      List.mem_map_of_mem _ hw
    rwa [tokenizeJapanese_texts] at this
  refine ⟨?_, ?_, ?_⟩
  · intro w hw
    obtain ⟨h1, h2⟩ := hmem w.text (htx w hw)
    exact ⟨h1, fun x hx => seg_char_no_space (h2 x hx).1⟩
  · intro hdot w hw x hx
    obtain ⟨h1, h2⟩ := hmem w.text (htx w hw)
    have hxd : x ≠ '・' := fun h => hdot (h ▸ (h2 x hx).2)
    have hk := seg_char_keep (h2 x hx).1 hxd
    simp only [Bool.not_eq_true', Bool.or_eq_false_iff] at hk
    exact hk.1
  · rw [tokenizeJapanese_ids, tokenizeJapanese_length]

theorem c7_witness :
    ('・' ∉ ("あ".toList)) ∧
      (∀ w ∈ tokenizeJapanese ("あ".toList) "s",
        ∀ ch ∈ w.text, isPunct ch = false) :=
  ⟨by decide, (c7_token_invariants ("あ".toList) "s").2.1 (by decide)⟩

/-- C8: `tokenizeJapanese` returns `[]` on the empty string, on `"。、！"`,
and on every string of only punctuation-set and whitespace characters; in
that case `subtitlesToSentences` substitutes the single fallback token
wrapping the entry text verbatim (with id `<sentenceId>-w0`), so no sentence
carries zero tokens. -/
theorem c8_degenerate :
    (∀ sid : String, tokenizeJapanese [] sid = []) ∧
    (∀ sid : String, tokenizeJapanese ("。、！".toList) sid = []) ∧
    (∀ text : List Char, (∀ ch ∈ text, isPunct ch = true ∨ isSpace ch = true) →
      ∀ sid : String, tokenizeJapanese text sid = []) ∧
    (∀ entry : SubtitleEntry,
      tokenizeJapanese entry.text ("sub-" ++ toString entry.id) = [] →
      (sentenceOf entry).words =
        [createWord entry.text (("sub-" ++ toString entry.id) ++ "-w0")]) ∧
    (∀ entries : List SubtitleEntry,
      ∀ s ∈ subtitlesToSentences entries, s.words ≠ []) := by
  have hgen : ∀ text : List Char,
      (∀ ch ∈ text, isPunct ch = true ∨ isSpace ch = true) →
      ∀ sid : String, tokenizeJapanese text sid = [] := by
    intro text h sid
    simp [tokenizeJapanese, tokenizeAux, tokenizeAuxF_nil_of_punct_space _ _ h]
  refine ⟨fun sid => rfl, fun sid => hgen _ (by decide) sid, hgen, ?_, ?_⟩
  · intro entry h
    simp [sentenceOf, h]
  · intro entries s hs
    simp only [subtitlesToSentences, List.mem_map] at hs
    obtain ⟨e, -, rfl⟩ := hs
    simp only [sentenceOf]
    by_cases h : 0 < (tokenizeJapanese e.text ("sub-" ++ toString e.id)).length
    · simp only [if_pos h]
      exact List.ne_nil_of_length_pos h
    · simp only [if_neg h]
      exact List.cons_ne_nil _ _

theorem c8_witness :
    (∀ ch ∈ ("、。".toList), isPunct ch = true ∨ isSpace ch = true) ∧
      tokenizeJapanese ("、。".toList) "s" = [] :=
  ⟨by decide, c8_degenerate.2.2.1 ("、。".toList) (by decide) "s"⟩

/-- C9: the tokenizer scan terminates on every input: every loop iteration
advances the cursor by at least one character (the remaining input after one
iteration is strictly shorter), and consequently the fuelled loop is stable
under any sufficient fuel, so the function is total. -/
theorem c9_termination :
    (∀ l : List Char, l ≠ [] → (loopStep l).length < l.length) ∧
    (∀ (f1 f2 : Nat) (l : List Char), l.length ≤ f1 → l.length ≤ f2 →
      tokenizeAuxF f1 l = tokenizeAuxF f2 l) := by
  constructor
  · intro l hl
    rcases l with _ | ⟨c, rest⟩
    · exact absurd rfl hl
    · by_cases hs : isSpace c = true
      · simp [loopStep, hs]
      · by_cases hq : isPunct c = true
        · simp [loopStep, hs, hq]
        · have hprog := scanSegment_progress c rest (by simpa using hs)
            (by simpa using hq)
          have hstep : loopStep (c :: rest) = (scanSegment c rest).2 := by
            rw [loopStep, if_neg hs, if_neg hq]
          rw [hstep, List.length_cons]
          omega
  · exact tokenizeAuxF_fuel

theorem c9_witness :
    (("あ".toList) ≠ ([] : List Char)) ∧
      (loopStep ("あ".toList)).length < ("あ".toList).length :=
  ⟨by decide, c9_termination.1 ("あ".toList) (by decide)⟩

/-- C10: every member of the fixed particle set is a single character, so in
the hiragana branch the mid-run particle check never fires after the first
character: whenever the first character of a hiragana run is not a particle,
the branch's per-step scan is extensionally the plain maximal-run scan. -/
theorem c10_hiragana_max_run :
    (∀ p ∈ particles, p.length = 1) ∧
    (∀ (c : Char) (rest : List Char), isHiragana c = true →
      isParticle [c] = false →
      hiraScan [] (c :: rest) = maxRunScan (c :: rest)) := by
  constructor
  · decide
  · intro c rest hh hp
    rw [maxRunScan, List.takeWhile_cons_of_pos hh, List.dropWhile_cons_of_pos hh]
    have hstep : hiraScan [] (c :: rest) = hiraScan [c] rest := by
      rw [hiraScan, if_pos hh, if_neg (by simp [hp])]
      rw [List.nil_append]
    rw [hstep, hiraScan_acc_ne_nil rest [c] (by simp)]
    simp

theorem c10_witness :
    (isHiragana 'あ' = true) ∧ (isParticle ['あ'] = false) ∧
      hiraScan [] ('あ' :: "いう".toList) = maxRunScan ('あ' :: "いう".toList) :=
  ⟨by decide, by decide,
    c10_hiragana_max_run.2 'あ' ("いう".toList) (by decide) (by decide)⟩

/-! ### Timestamp parsing lemmas -/

theorem dropWhile_eq_self_of_none {p : Char → Bool} {l : List Char}
    (h : ∀ x ∈ l, p x = false) : l.dropWhile p = l := by
  induction l with
  | nil => rfl
  | cons c rest ih =>
    rw [List.dropWhile_cons_of_neg (by simp [h c (List.mem_cons_self c rest)])]

theorem takeWhile_eq_self_of_all {p : Char → Bool} {l : List Char}
    (h : ∀ x ∈ l, p x = true) : l.takeWhile p = l := by
  induction l with
  | nil => rfl
  | cons c rest ih =>
    rw [List.takeWhile_cons_of_pos (h c (List.mem_cons_self c rest))]
    rw [ih (fun x hx => h x (List.mem_cons_of_mem _ hx))]

theorem takeWhile_append_stop {p : Char → Bool} {xs ys : List Char} {y : Char}
    (hxs : ∀ x ∈ xs, p x = true) (hy : p y = false) :
    (xs ++ y :: ys).takeWhile p = xs := by
  induction xs with
  | nil =>
    have hyn : ¬(p y = true) := by simp [hy]
    rw [List.nil_append, List.takeWhile_cons_of_neg hyn]
  | cons c rest ih =>
    rw [List.cons_append,
      List.takeWhile_cons_of_pos (hxs c (List.mem_cons_self c rest)),
      ih (fun x hx => hxs x (List.mem_cons_of_mem _ hx))]

theorem jsTrim_eq_self {l : List Char} (h : ∀ x ∈ l, isSpace x = false) :
    jsTrim l = l := by
  rw [jsTrim, dropWhile_eq_self_of_none h, dropWhile_eq_self_of_none
    (fun x hx => h x (List.mem_reverse.mp hx)), List.reverse_reverse]

theorem replaceFirstComma_of_no_comma {l : List Char} (h : ',' ∉ l) :
    replaceFirstComma l = l := by
  induction l with
  | nil => rfl
  | cons c rest ih =>
    have hc : ¬(c = ',') := fun he => h (he ▸ List.mem_cons_self c rest)
    rw [replaceFirstComma, if_neg hc, ih (fun hm => h (List.mem_cons_of_mem _ hm))]

theorem replaceFirstComma_append {xs ys : List Char} (h : ',' ∉ xs) :
    replaceFirstComma (xs ++ ',' :: ys) = xs ++ '.' :: ys := by
  induction xs with
  | nil => simp [replaceFirstComma]
  | cons c rest ih =>
    have hc : ¬(c = ',') := fun he => h (he ▸ List.mem_cons_self c rest)
    rw [List.cons_append, replaceFirstComma, if_neg hc,
      ih (fun hm => h (List.mem_cons_of_mem _ hm)), List.cons_append]

theorem splitCharAux_of_no_sep {sep : Char} {l : List Char} (cur : List Char)
    (h : ∀ x ∈ l, ¬(x = sep)) :
    splitCharAux sep cur l = [cur.reverse ++ l] := by
  induction l generalizing cur with
  | nil => simp [splitCharAux]
  | cons c rest ih =>
    rw [splitCharAux, if_neg (h c (List.mem_cons_self c rest)),
      ih (c :: cur) (fun x hx => h x (List.mem_cons_of_mem _ hx))]
    simp

theorem splitCharAux_append {sep : Char} {xs ys : List Char} (cur : List Char)
    (h : ∀ x ∈ xs, ¬(x = sep)) :
    splitCharAux sep cur (xs ++ sep :: ys) =
      (cur.reverse ++ xs) :: splitCharAux sep [] ys := by
  induction xs generalizing cur with
  | nil => simp [splitCharAux]
  | cons c rest ih =>
    rw [List.cons_append, splitCharAux, if_neg (h c (List.mem_cons_self c rest)),
      ih (c :: cur) (fun x hx => h x (List.mem_cons_of_mem _ hx))]
    simp

theorem splitChar_cons_of_no_sep {sep : Char} {xs ys : List Char}
    (h : ∀ x ∈ xs, ¬(x = sep)) :
    splitChar sep (xs ++ sep :: ys) = xs :: splitChar sep ys := by
  rw [splitChar, splitCharAux_append [] h, List.reverse_nil, List.nil_append,
    splitChar]

theorem splitChar_of_no_sep {sep : Char} {l : List Char}
    (h : ∀ x ∈ l, ¬(x = sep)) : splitChar sep l = [l] := by
  rw [splitChar, splitCharAux_of_no_sep [] h, List.reverse_nil, List.nil_append]

theorem digit_not_space {c : Char} (h : isDigitCh c = true) :
    isSpace c = false := by
  simp [isDigitCh] at h
  simp [isSpace]
  omega

theorem digit_ne_colon {c : Char} (h : isDigitCh c = true) : ¬(c = ':') :=
  fun hc => absurd (hc ▸ h) (by decide)

theorem digit_ne_comma {c : Char} (h : isDigitCh c = true) : ¬(c = ',') :=
  fun hc => absurd (hc ▸ h) (by decide)

theorem digit_ne_point {c : Char} (h : isDigitCh c = true) : ¬(c = '.') :=
  fun hc => absurd (hc ▸ h) (by decide)

theorem floatMag_digits {p : List Char} (hne : p ≠ [])
    (hd : ∀ x ∈ p, isDigitCh x = true) :
    floatMag p = some ((digitsVal p : ℚ)) := by
  simp only [floatMag]
  rw [takeWhile_eq_self_of_all hd,
    if_neg (by simpa [List.isEmpty_iff] using hne), List.drop_length]
  simp

theorem floatMag_point {p q : List Char} (hne : p ≠ [])
    (hp : ∀ x ∈ p, isDigitCh x = true) (hq : ∀ x ∈ q, isDigitCh x = true) :
    floatMag (p ++ '.' :: q) =
      some ((digitsVal p : ℚ) + (digitsVal q : ℚ) / 10 ^ q.length) := by
  simp only [floatMag]
  rw [takeWhile_append_stop hp (by decide),
    if_neg (by simpa [List.isEmpty_iff] using hne), List.drop_left,
    List.head?_cons, if_pos rfl]
  simp only [List.drop_succ_cons, List.drop_zero]
  rw [takeWhile_eq_self_of_all hq]

theorem jsParseFloat_digits {p : List Char} (hne : p ≠ [])
    (hd : ∀ x ∈ p, isDigitCh x = true) :
    jsParseFloat p = some ((digitsVal p : ℚ)) := by
  rw [jsParseFloat, dropWhile_eq_self_of_none (fun x hx => digit_not_space (hd x hx))]
  exact floatMag_digits hne hd

theorem jsParseFloat_point {p q : List Char} (hne : p ≠ [])
    (hp : ∀ x ∈ p, isDigitCh x = true) (hq : ∀ x ∈ q, isDigitCh x = true) :
    jsParseFloat (p ++ '.' :: q) =
      some ((digitsVal p : ℚ) + (digitsVal q : ℚ) / 10 ^ q.length) := by
  have hns : ∀ x ∈ p ++ '.' :: q, isSpace x = false := by
    intro x hx
    rcases List.mem_append.mp hx with hx | hx
    · exact digit_not_space (hp x hx)
    · rcases List.mem_cons.mp hx with rfl | hx
      · decide
      · exact digit_not_space (hq x hx)
  rw [jsParseFloat, dropWhile_eq_self_of_none hns]
  exact floatMag_point hne hp hq

theorem parseSrtTime_three (p0 p1 p2 p3 : List Char) (sep : Char)
    (h0 : p0 ≠ []) (h0d : ∀ ch ∈ p0, isDigitCh ch = true)
    (h1 : p1 ≠ []) (h1d : ∀ ch ∈ p1, isDigitCh ch = true)
    (h2 : p2 ≠ []) (h2d : ∀ ch ∈ p2, isDigitCh ch = true)
    (h3d : ∀ ch ∈ p3, isDigitCh ch = true)
    (hsep : sep = ',' ∨ sep = '.') :
    parseSrtTime (p0 ++ ':' :: (p1 ++ ':' :: (p2 ++ sep :: p3))) =
      some ((digitsVal p0 : ℚ) * 3600 + (digitsVal p1 : ℚ) * 60 +
        ((digitsVal p2 : ℚ) + (digitsVal p3 : ℚ) / 10 ^ p3.length)) := by
  have hA : ∀ x ∈ p0 ++ ':' :: (p1 ++ ':' :: (p2 ++ sep :: p3)),
      isSpace x = false := by
    intro x hx
    simp only [List.mem_append, List.mem_cons] at hx
    rcases hx with hx | rfl | hx | rfl | hx | rfl | hx
    · exact digit_not_space (h0d x hx)
    · decide
    · exact digit_not_space (h1d x hx)
    · decide
    · exact digit_not_space (h2d x hx)
    · rcases hsep with rfl | rfl <;> decide
    · exact digit_not_space (h3d x hx)
  have hrep : replaceFirstComma (p0 ++ ':' :: (p1 ++ ':' :: (p2 ++ sep :: p3))) =
      p0 ++ ':' :: (p1 ++ ':' :: (p2 ++ '.' :: p3)) := by
    rcases hsep with rfl | rfl
    · have hnc : ',' ∉ p0 ++ ':' :: (p1 ++ ':' :: p2) := by
        intro hm
        simp only [List.mem_append, List.mem_cons] at hm
        rcases hm with hm | hm | hm | hm | hm
        · exact absurd (h0d _ hm) (by decide)
        · exact absurd hm (by decide)
        · exact absurd (h1d _ hm) (by decide)
        · exact absurd hm (by decide)
        · exact absurd (h2d _ hm) (by decide)
      have he1 : p0 ++ ':' :: (p1 ++ ':' :: (p2 ++ ',' :: p3)) =
          (p0 ++ ':' :: (p1 ++ ':' :: p2)) ++ ',' :: p3 := by
        simp [List.append_assoc]
      have he2 : (p0 ++ ':' :: (p1 ++ ':' :: p2)) ++ '.' :: p3 =
          p0 ++ ':' :: (p1 ++ ':' :: (p2 ++ '.' :: p3)) := by
        simp [List.append_assoc]
      rw [he1, replaceFirstComma_append hnc, he2]
    · apply replaceFirstComma_of_no_comma
      intro hm
      simp only [List.mem_append, List.mem_cons] at hm
      rcases hm with hm | hm | hm | hm | hm | hm | hm
      · exact absurd (h0d _ hm) (by decide)
      · exact absurd hm (by decide)
      · exact absurd (h1d _ hm) (by decide)
      · exact absurd hm (by decide)
      · exact absurd (h2d _ hm) (by decide)
      · exact absurd hm (by decide)
      · exact absurd (h3d _ hm) (by decide)
  have hlast : ∀ x ∈ p2 ++ '.' :: p3, ¬(x = ':') := by
    intro x hx
    rcases List.mem_append.mp hx with hx | hx
    · exact digit_ne_colon (h2d x hx)
    · rcases List.mem_cons.mp hx with rfl | hx
      · decide
      · exact digit_ne_colon (h3d x hx)
  have hsplit : splitChar ':' (p0 ++ ':' :: (p1 ++ ':' :: (p2 ++ '.' :: p3))) =
      [p0, p1, p2 ++ '.' :: p3] := by
    rw [splitChar_cons_of_no_sep (fun x hx => digit_ne_colon (h0d x hx)),
      splitChar_cons_of_no_sep (fun x hx => digit_ne_colon (h1d x hx)),
      splitChar_of_no_sep hlast]
  simp only [parseSrtTime]
  rw [jsTrim_eq_self hA, hrep, hsplit]
  simp only [jsParseFloat_digits h0 h0d, jsParseFloat_digits h1 h1d,
    jsParseFloat_point h2 h2d h3d]

theorem parseSrtTime_two (p1 p2 p3 : List Char) (sep : Char)
    (h1 : p1 ≠ []) (h1d : ∀ ch ∈ p1, isDigitCh ch = true)
    (h2 : p2 ≠ []) (h2d : ∀ ch ∈ p2, isDigitCh ch = true)
    (h3d : ∀ ch ∈ p3, isDigitCh ch = true)
    (hsep : sep = ',' ∨ sep = '.') :
    parseSrtTime (p1 ++ ':' :: (p2 ++ sep :: p3)) =
      some ((digitsVal p1 : ℚ) * 60 +
        ((digitsVal p2 : ℚ) + (digitsVal p3 : ℚ) / 10 ^ p3.length)) := by
  have hA : ∀ x ∈ p1 ++ ':' :: (p2 ++ sep :: p3), isSpace x = false := by
    intro x hx
    simp only [List.mem_append, List.mem_cons] at hx
    rcases hx with hx | rfl | hx | rfl | hx
    · exact digit_not_space (h1d x hx)
    · decide
    · exact digit_not_space (h2d x hx)
    · rcases hsep with rfl | rfl <;> decide
    · exact digit_not_space (h3d x hx)
  have hrep : replaceFirstComma (p1 ++ ':' :: (p2 ++ sep :: p3)) =
      p1 ++ ':' :: (p2 ++ '.' :: p3) := by
    rcases hsep with rfl | rfl
    · have hnc : ',' ∉ p1 ++ ':' :: p2 := by
        intro hm
        simp only [List.mem_append, List.mem_cons] at hm
        rcases hm with hm | hm | hm
        · exact absurd (h1d _ hm) (by decide)
        · exact absurd hm (by decide)
        · exact absurd (h2d _ hm) (by decide)
      have he1 : p1 ++ ':' :: (p2 ++ ',' :: p3) = (p1 ++ ':' :: p2) ++ ',' :: p3 := by
        simp [List.append_assoc]
      have he2 : (p1 ++ ':' :: p2) ++ '.' :: p3 = p1 ++ ':' :: (p2 ++ '.' :: p3) := by
        simp [List.append_assoc]
      rw [he1, replaceFirstComma_append hnc, he2]
    · apply replaceFirstComma_of_no_comma
      intro hm
      simp only [List.mem_append, List.mem_cons] at hm
      rcases hm with hm | hm | hm | hm | hm
      · exact absurd (h1d _ hm) (by decide)
      · exact absurd hm (by decide)
      · exact absurd (h2d _ hm) (by decide)
      · exact absurd hm (by decide)
      · exact absurd (h3d _ hm) (by decide)
  have hlast : ∀ x ∈ p2 ++ '.' :: p3, ¬(x = ':') := by
    intro x hx
    rcases List.mem_append.mp hx with hx | hx
    · exact digit_ne_colon (h2d x hx)
    · rcases List.mem_cons.mp hx with rfl | hx
      · decide
      · exact digit_ne_colon (h3d x hx)
  have hsplit : splitChar ':' (p1 ++ ':' :: (p2 ++ '.' :: p3)) =
      [p1, p2 ++ '.' :: p3] := by
    rw [splitChar_cons_of_no_sep (fun x hx => digit_ne_colon (h1d x hx)),
      splitChar_of_no_sep hlast]
  simp only [parseSrtTime]
  rw [jsTrim_eq_self hA, hrep, hsplit]
  simp only [jsParseFloat_digits h1 h1d, jsParseFloat_point h2 h2d h3d]

/-- C4 (counterexample): a cue block whose timestamp line uses the lone
two-part `MM:SS,mmm` form is not accepted by `parseSRT`; the block is
skipped because the range pattern requires three-part timestamps, so the
result is empty. -/
theorem c4_counterexample :
    parseSRT ("1\n01:02,500 --> 01:04,000\nA".toList) = [] := by
  decide

/-- C4 (amended): the time-conversion function `parseSrtTime` converts a
three-part timestamp `H:MM:SS` with decimal part (comma or period as the
decimal separator) to `H*3600 + MM*60 + SS.mmm` seconds, and a lone
two-part `MM:SS,mmm` input to `MM*60 + SS.mmm` seconds; but the block
pattern of `parseSRT` itself only matches three-part timestamp lines, so a
cue block in the two-part form is skipped (see the counterexample). -/
theorem c4_time_conversion (p0 p1 p2 p3 : List Char) (sep : Char)
    (h0 : p0 ≠ []) (h0d : ∀ ch ∈ p0, isDigitCh ch = true)
    (h1 : p1 ≠ []) (h1d : ∀ ch ∈ p1, isDigitCh ch = true)
    (h2 : p2 ≠ []) (h2d : ∀ ch ∈ p2, isDigitCh ch = true)
    (h3d : ∀ ch ∈ p3, isDigitCh ch = true)
    (hsep : sep = ',' ∨ sep = '.') :
    parseSrtTime (p0 ++ ':' :: (p1 ++ ':' :: (p2 ++ sep :: p3))) =
      some ((digitsVal p0 : ℚ) * 3600 + (digitsVal p1 : ℚ) * 60 +
        ((digitsVal p2 : ℚ) + (digitsVal p3 : ℚ) / 10 ^ p3.length)) ∧
    parseSrtTime (p1 ++ ':' :: (p2 ++ sep :: p3)) =
      some ((digitsVal p1 : ℚ) * 60 +
        ((digitsVal p2 : ℚ) + (digitsVal p3 : ℚ) / 10 ^ p3.length)) :=
  ⟨parseSrtTime_three p0 p1 p2 p3 sep h0 h0d h1 h1d h2 h2d h3d hsep,
    parseSrtTime_two p1 p2 p3 sep h1 h1d h2 h2d h3d hsep⟩

theorem c4_witness :
    parseSrtTime (['1'] ++ ':' :: (['0', '2'] ++ ':' :: (['0', '3'] ++ ',' :: ['5', '0', '0']))) =
      some ((digitsVal ['1'] : ℚ) * 3600 + (digitsVal ['0', '2'] : ℚ) * 60 +
        ((digitsVal ['0', '3'] : ℚ) +
          (digitsVal ['5', '0', '0'] : ℚ) / 10 ^ (['5', '0', '0'] : List Char).length)) ∧
    parseSrtTime (['0', '2'] ++ ':' :: (['0', '3'] ++ ',' :: ['5', '0', '0'])) =
      some ((digitsVal ['0', '2'] : ℚ) * 60 +
        ((digitsVal ['0', '3'] : ℚ) +
          (digitsVal ['5', '0', '0'] : ℚ) / 10 ^ (['5', '0', '0'] : List Char).length)) :=
  c4_time_conversion ['1'] ['0', '2'] ['0', '3'] ['5', '0', '0'] ','
    (by decide) (by decide) (by decide) (by decide) (by decide) (by decide)
    (by decide) (Or.inl rfl)

/-! ### SRT and VTT parser lemmas -/

theorem srtBlockEntry_eq_spec (block : List Char) :
    srtBlockEntry block = specSrtBlock block := by
  rcases hls : splitChar '\n' block with _ | ⟨l0, ls⟩
  · simp [srtBlockEntry, specSrtBlock, hls]
  · rcases ls with _ | ⟨l1, ls2⟩
    · simp [srtBlockEntry, specSrtBlock, hls]
    · rcases ls2 with _ | ⟨l2, ls3⟩
      · simp only [srtBlockEntry, specSrtBlock, hls]
        rw [if_pos (by simp)]
        cases hp : jsParseInt l0
        · rfl
        · rcases hq : searchRangeSrt l1 with _ | ⟨t1, t2⟩
          · rfl
          · rfl
      · simp only [srtBlockEntry, specSrtBlock, hls]
        rw [if_neg (by simp only [List.length_cons]; omega)]
        simp only [List.getD_cons_zero, List.getD_cons_succ, List.drop_succ_cons,
          List.drop_zero]
        cases hp : jsParseInt l0
        · rfl
        · rcases hq : searchRangeSrt l1 with _ | ⟨t1, t2⟩
          · rfl
          · rfl

theorem parseVTTLoopF_cons_none {fuel : Nat} {line : List Char}
    {rest : List (List Char)} {n : Nat}
    (hm : searchRangeVtt (jsTrim line) = none) :
    parseVTTLoopF (fuel + 1) (line :: rest) n = parseVTTLoopF fuel rest n := by
  rw [parseVTTLoopF, hm]

theorem parseVTTLoopF_cons_skip {fuel : Nat} {line t1 t2 : List Char}
    {rest : List (List Char)} {n : Nat}
    (hm : searchRangeVtt (jsTrim line) = some (t1, t2))
    (htext : jsTrim (stripTags (joinSpace
      ((rest.takeWhile (fun x => !(jsTrim x).isEmpty && !(containsArrow x))).map
        jsTrim))) = []) :
    parseVTTLoopF (fuel + 1) (line :: rest) n =
      parseVTTLoopF fuel
        (rest.drop
          (rest.takeWhile (fun x => !(jsTrim x).isEmpty && !(containsArrow x))).length)
        n := by
  rw [parseVTTLoopF, hm]
  simp only []
  rw [if_pos htext]

theorem parseVTTLoopF_cons_push {fuel : Nat} {line t1 t2 : List Char}
    {rest : List (List Char)} {n : Nat}
    (hm : searchRangeVtt (jsTrim line) = some (t1, t2))
    (htext : jsTrim (stripTags (joinSpace
      ((rest.takeWhile (fun x => !(jsTrim x).isEmpty && !(containsArrow x))).map
        jsTrim))) ≠ []) :
    parseVTTLoopF (fuel + 1) (line :: rest) n =
      ⟨(n : Int), parseVttTime t1, parseVttTime t2,
          jsTrim (stripTags (joinSpace
            ((rest.takeWhile (fun x => !(jsTrim x).isEmpty && !(containsArrow x))).map
              jsTrim)))⟩ ::
        parseVTTLoopF fuel
          (rest.drop
            (rest.takeWhile (fun x => !(jsTrim x).isEmpty && !(containsArrow x))).length)
          (n + 1) := by
  rw [parseVTTLoopF, hm]
  simp only []
  rw [if_neg htext]

theorem parseVTTLoopF_ids : ∀ (fuel : Nat) (ls : List (List Char)) (n : Nat),
    ls.length ≤ fuel →
    (parseVTTLoopF fuel ls n).map SubtitleEntry.id =
      (List.range' n (parseVTTLoopF fuel ls n).length).map Int.ofNat := by
  intro fuel
  induction fuel with
  | zero =>
    intro ls n h
    rw [List.length_eq_zero.mp (Nat.le_zero.mp h)]
    rfl
  | succ fuel ih =>
    intro ls n h
    rcases ls with _ | ⟨line, rest⟩
    · rfl
    · rw [List.length_cons] at h
      have hdrop : (rest.drop
          (rest.takeWhile (fun x => !(jsTrim x).isEmpty && !(containsArrow x))).length).length
          ≤ fuel := by
        rw [List.length_drop]
        omega
      rcases hm : searchRangeVtt (jsTrim line) with _ | ⟨t1, t2⟩
      · rw [parseVTTLoopF_cons_none hm]
        exact ih rest n (by omega)
      · by_cases htext : jsTrim (stripTags (joinSpace
            ((rest.takeWhile (fun x => !(jsTrim x).isEmpty && !(containsArrow x))).map
              jsTrim))) = []
        · rw [parseVTTLoopF_cons_skip hm htext]
          exact ih _ n hdrop
        · rw [parseVTTLoopF_cons_push hm htext, List.map_cons, List.length_cons,
            List.range'_succ, List.map_cons, ih _ (n + 1) hdrop]
          rfl

/-- C5 (counterexample): a block whose index and timestamp lines are valid
but whose text is empty after markup stripping (here a lone `<i>` line) is
skipped by `parseSRT`, although it passes the three checks the claim lists;
the claimed equality with the three-check filter fails on this input. -/
theorem c5_counterexample :
    ¬ (parseSRT ("1\n00:00:01,000 --> 00:00:02,000\n<i>\n\n2\n00:00:03,000 --> 00:00:04,000\nB".toList) =
      (splitBlocks (jsTrim ("1\n00:00:01,000 --> 00:00:02,000\n<i>\n\n2\n00:00:03,000 --> 00:00:04,000\nB".toList))).filterMap
        specSrtBlockNoText) :=
  fun h => absurd (congrArg List.length h) (by decide)

/-- C5 (amended): `parseSRT` returns exactly the segments of the blocks
passing all validity checks — line 1 an integer index, line 2 a
timestamp-range match, and additionally a non-empty cue text after joining
the remaining lines, stripping `<tag>` markup, and trimming — in input
order, silently skipping every other block; in particular, inserting a
block with a non-numeric first line between two valid blocks yields only
the 2 valid segments, order preserved. -/
theorem c5_valid_blocks :
    (∀ content : List Char,
      parseSRT content = (splitBlocks (jsTrim content)).filterMap specSrtBlock) ∧
    (parseSRT ("1\n00:00:01,000 --> 00:00:02,000\nA\n\nxx\n00:00:03,000 --> 00:00:04,000\nB\n\n2\n00:00:05,000 --> 00:00:06,000\nC".toList)).map
        (fun e => (e.id, e.text)) = [(1, "A".toList), (2, "C".toList)] := by
  constructor
  · intro content
    rw [parseSRT, show srtBlockEntry = specSrtBlock from funext srtBlockEntry_eq_spec]
  · decide

/-- C6: `parseVTT` skips every leading line not containing `-->`, assigns
cue indices sequentially from 1 to the cues it emits, and drops cues whose
text is empty after markup stripping: a `WEBVTT` header followed by one cue
with text `こんにちは` parses to exactly that one segment, and a cue whose
text is only markup is dropped without consuming an index. -/
theorem c6_vtt_parsing :
    (∀ (l : List Char) (ls : List (List Char)), containsArrow l = false →
      parseVTTLines (l :: ls) = parseVTTLines ls) ∧
    (∀ content : List Char, (parseVTT content).map SubtitleEntry.id =
      (List.range' 1 (parseVTT content).length).map Int.ofNat) ∧
    (parseVTT ("WEBVTT\n\n00:00:00.000 --> 00:00:01.000\nこんにちは".toList)).map
        (fun e => (e.id, e.text)) = [(1, "こんにちは".toList)] ∧
    (parseVTT ("WEBVTT\n\n00:00:00.000 --> 00:00:01.000\n<i>\n\n00:00:02.000 --> 00:00:03.000\nB".toList)).map
        (fun e => (e.id, e.text)) = [(1, "B".toList)] := by
  refine ⟨?_, ?_, by decide, by decide⟩
  · intro l ls h
    simp only [parseVTTLines]
    rw [List.dropWhile_cons_of_pos (by simp [h])]
  · intro content
    exact parseVTTLoopF_ids _ _ 1 le_rfl

theorem c6_witness :
    (containsArrow ("WEBVTT".toList) = false) ∧
      parseVTTLines (("WEBVTT".toList) :: []) = parseVTTLines [] :=
  ⟨by decide, c6_vtt_parsing.1 ("WEBVTT".toList) [] (by decide)⟩

end SubtitleParser
